import Mathlib

set_option maxHeartbeats 1600000
set_option maxRecDepth 100000

/-
Verification of the pysha-sdk native utility layer.

Strings are modelled as lists of Unicode code points (`List Nat`), byte
buffers as lists of byte values (`List Nat`, each element < 256).
Python exceptions are modelled by the `PyErr` error type together with
`Except`.  All definitions are translated from the Cython sources
(`src/unnamed/part_000`, the strings module, and
`src/src/pysha_sdk/utils/crypto/_native.pyx`, which also carries the
objects module).
-/

namespace Pysha

/-- The Python exception classes raised by the modelled code paths:
`ValueError` (including its `UnicodeEncodeError` / `UnicodeDecodeError`
subclasses, kept separate so statements can tell the raise sites apart). -/
inductive PyErr where
  | valueError
  | unicodeEncodeError
  | unicodeDecodeError
deriving DecidableEq, Repr

/-- Boolean test for a successful `Except` result. -/
def isOkE {α : Type} : Except PyErr α → Bool
  | .ok _ => true
  | .error _ => false

/-! ### ByteCodec (`src/unnamed/part_000`) -/

/-- Model of `_is_hex_char`: ASCII codes of `0-9`, `a-f`, `A-F`. -/
def isHexChar (c : Nat) : Bool :=
  (48 ≤ c && c ≤ 57) || (97 ≤ c && c ≤ 102) || (65 ≤ c && c ≤ 70)

/-- Model of `_is_digit_char` and of `str.isdigit` restricted to the ASCII
decimal digits `0-9` (Python's `str.isdigit` also accepts some non-ASCII
digit code points; none of the verified claims depend on those). -/
def isAsciiDigit (c : Nat) : Bool := 48 ≤ c && c ≤ 57

/-- Model of the `HEX_CHARS` lookup table `b"0123456789abcdef"`:
the ASCII code of the lowercase hex digit for a nibble value. -/
def hexChar (n : Nat) : Nat := if n < 10 then 48 + n else 87 + n

/-- Model of `_bytes_to_hex`: two lowercase hex characters per byte,
high nibble first. -/
def bytesToHex : List Nat → List Nat
  | [] => []
  | b :: rest => hexChar (b >>> 4) :: hexChar (b &&& 15) :: bytesToHex rest

/-- Model of `_hex_char_to_nibble`: hex digit value, and `0` for any
other character (the source's final `return 0` fallback). -/
def hexCharToNibble (c : Nat) : Nat :=
  if 48 ≤ c && c ≤ 57 then c - 48
  else if 97 ≤ c && c ≤ 102 then c - 97 + 10
  else if 65 ≤ c && c ≤ 70 then c - 65 + 10
  else 0

/-- Model of `_hex_to_bytes`: consume the characters two at a time,
high nibble first; a trailing odd character is ignored (the source loops
`hex_len // 2` times). -/
def hexToBytes : List Nat → List Nat
  | c1 :: c2 :: rest => ((hexCharToNibble c1 <<< 4) ||| hexCharToNibble c2) :: hexToBytes rest
  | _ => []

/-- Model of `is_valid_israeli_id_cython`: reject length > 9 or a
non-digit character, left-pad with `'0'` to 9 digits, then the weighted
checksum (`digit * (1 + i mod 2)`, reduced by 9 when above 9) must be
divisible by 10. -/
def is_valid_israeli_id_cython (text : List Nat) : Bool :=
  if text.length > 9 then false
  else if !(text.all isAsciiDigit) then false
  else
    let padded := List.replicate (9 - text.length) 48 ++ text
    let total := (List.range 9).foldl (fun tot i =>
      let digit := padded.getD i 0 - 48
      let step := digit * (i % 2 + 1)
      tot + (if step > 9 then step - 9 else step)) 0
    total % 10 == 0

/-- Model of `is_hex_cython`: empty text returns `False`; otherwise the
text is encoded as ASCII (raising `UnicodeEncodeError` when any code
point is ≥ 128, exactly as `text.encode('ascii')` does), then every
character must satisfy `_is_hex_char`. -/
def is_hex_cython (text : List Nat) : Except PyErr Bool :=
  if text.isEmpty then .ok false
  else if text.any (fun c => 128 ≤ c) then .error .unicodeEncodeError
  else .ok (text.all isHexChar)

/-- UTF-8 encoding of one Unicode scalar value (model of CPython's
`str.encode('utf-8')` per code point; CPython raises on lone surrogates,
so theorems touching encoding restrict inputs to scalar values). -/
def utf8EncodeChar (c : Nat) : List Nat :=
  if c < 128 then [c]
  else if c < 2048 then [192 + c / 64, 128 + c % 64]
  else if c < 65536 then [224 + c / 4096, 128 + (c / 64) % 64, 128 + c % 64]
  else [240 + c / 262144, 128 + (c / 4096) % 64, 128 + (c / 64) % 64, 128 + c % 64]

/-- UTF-8 encoding of a whole string. -/
def utf8Encode : List Nat → List Nat
  | [] => []
  | c :: rest => utf8EncodeChar c ++ utf8Encode rest

/-- Strict UTF-8 decoding (model of CPython's `bytes.decode('utf-8')`):
rejects continuation-lead bytes, overlong forms, surrogates and code
points above U+10FFFF; returns `none` where CPython raises
`UnicodeDecodeError`. -/
def utf8Decode : List Nat → Option (List Nat)
  | [] => some []
  | b :: rest =>
    if b < 128 then (utf8Decode rest).map (fun t => b :: t)
    else if b < 194 then none
    else if b < 224 then
      match rest with
      | b2 :: rest2 =>
        if 128 ≤ b2 && b2 < 192 then
          (utf8Decode rest2).map (fun t => ((b - 192) * 64 + (b2 - 128)) :: t)
        else none
      | [] => none
    else if b < 240 then
      match rest with
      | b2 :: b3 :: rest3 =>
        if (if b = 224 then 160 ≤ b2 && b2 < 192
            else if b = 237 then 128 ≤ b2 && b2 < 160
            else 128 ≤ b2 && b2 < 192) && (128 ≤ b3 && b3 < 192) then
          (utf8Decode rest3).map (fun t => ((b - 224) * 4096 + (b2 - 128) * 64 + (b3 - 128)) :: t)
        else none
      | _ => none
    else if b < 245 then
      match rest with
      | b2 :: b3 :: b4 :: rest4 =>
        if (if b = 240 then 144 ≤ b2 && b2 < 192
            else if b = 244 then 128 ≤ b2 && b2 < 144
            else 128 ≤ b2 && b2 < 192) && (128 ≤ b3 && b3 < 192) && (128 ≤ b4 && b4 < 192) then
          (utf8Decode rest4).map
            (fun t => ((b - 240) * 262144 + (b2 - 128) * 4096 + (b3 - 128) * 64 + (b4 - 128)) :: t)
        else none
      | _ => none
    else none

/-- Model of `from_hex_cython`: `text.encode('ascii')` (raises on any
code point ≥ 128), a `ValueError` on odd length, `_hex_to_bytes`, then
`bytes.decode('utf-8')` (raises when the bytes are not valid UTF-8).
Characters outside `[0-9a-fA-F]` do not raise: `_hex_char_to_nibble`
maps them to 0. -/
def from_hex_cython (text : List Nat) : Except PyErr (List Nat) :=
  if text.any (fun c => 128 ≤ c) then .error .unicodeEncodeError
  else if text.length % 2 ≠ 0 then .error .valueError
  else
    match utf8Decode (hexToBytes text) with
    | some s => .ok s
    | none => .error .unicodeDecodeError

/-- Model of `to_hex_cython`: UTF-8 encode, then `_bytes_to_hex`. -/
def to_hex_cython (text : List Nat) : List Nat :=
  bytesToHex (utf8Encode text)

/-! ### MD5 (model of the `hashlib.md5` collaborator, RFC 1321)

The crypto module delegates hashing to `hashlib.md5`.  The algorithm is
reproduced here on `Nat` with explicit reduction modulo `2 ^ 32`, so that
digest values can be evaluated inside proofs.  The RFC 1321 test vectors
are checked below (`md5_rfc_vector_empty`, `md5_rfc_vector_abc`). -/

/-- 32-bit left rotation. -/
def rotl32 (x s : Nat) : Nat := ((x <<< s) % 2 ^ 32) ||| (x >>> (32 - s))

/-- MD5 round function F. -/
def md5F (b c d : Nat) : Nat := (b &&& c) ||| ((b ^^^ 4294967295) &&& d)

/-- MD5 round function G. -/
def md5G (b c d : Nat) : Nat := (d &&& b) ||| ((d ^^^ 4294967295) &&& c)

/-- MD5 round function H. -/
def md5H (b c d : Nat) : Nat := b ^^^ c ^^^ d

/-- MD5 round function I. -/
def md5I (b c d : Nat) : Nat := c ^^^ (b ||| (d ^^^ 4294967295))

/-- The 64 MD5 sine-table constants. -/
def md5K (i : Nat) : Nat :=
  [0xd76aa478, 0xe8c7b756, 0x242070db, 0xc1bdceee,
   0xf57c0faf, 0x4787c62a, 0xa8304613, 0xfd469501,
   0x698098d8, 0x8b44f7af, 0xffff5bb1, 0x895cd7be,
   0x6b901122, 0xfd987193, 0xa679438e, 0x49b40821,
   0xf61e2562, 0xc040b340, 0x265e5a51, 0xe9b6c7aa,
   0xd62f105d, 0x02441453, 0xd8a1e681, 0xe7d3fbc8,
   0x21e1cde6, 0xc33707d6, 0xf4d50d87, 0x455a14ed,
   0xa9e3e905, 0xfcefa3f8, 0x676f02d9, 0x8d2a4c8a,
   0xfffa3942, 0x8771f681, 0x6d9d6122, 0xfde5380c,
   0xa4beea44, 0x4bdecfa9, 0xf6bb4b60, 0xbebfbc70,
   0x289b7ec6, 0xeaa127fa, 0xd4ef3085, 0x04881d05,
   0xd9d4d039, 0xe6db99e5, 0x1fa27cf8, 0xc4ac5665,
   0xf4292244, 0x432aff97, 0xab9423a7, 0xfc93a039,
   0x655b59c3, 0x8f0ccc92, 0xffeff47d, 0x85845dd1,
   0x6fa87e4f, 0xfe2ce6e0, 0xa3014314, 0x4e0811a1,
   0xf7537e82, 0xbd3af235, 0x2ad7d2bb, 0xeb86d391].getD i 0

/-- The per-round MD5 shift amounts. -/
def md5S (i : Nat) : Nat :=
  if i < 16 then [7, 12, 17, 22].getD (i % 4) 0
  else if i < 32 then [5, 9, 14, 20].getD (i % 4) 0
  else if i < 48 then [4, 11, 16, 23].getD (i % 4) 0
  else [6, 10, 15, 21].getD (i % 4) 0

/-- The message-word index used in MD5 round `i`. -/
def md5GIdx (i : Nat) : Nat :=
  if i < 16 then i
  else if i < 32 then (5 * i + 1) % 16
  else if i < 48 then (3 * i + 5) % 16
  else (7 * i) % 16

/-- The round function used in MD5 round `i`. -/
def md5Mix (i b c d : Nat) : Nat :=
  if i < 16 then md5F b c d
  else if i < 32 then md5G b c d
  else if i < 48 then md5H b c d
  else md5I b c d

/-- Little-endian 32-bit word `g` of a 64-byte block. -/
def md5Word (block : List Nat) (g : Nat) : Nat :=
  block.getD (4 * g) 0 + 256 * block.getD (4 * g + 1) 0 +
    65536 * block.getD (4 * g + 2) 0 + 16777216 * block.getD (4 * g + 3) 0

/-- One MD5 block compression. -/
def md5Compress (st : Nat × Nat × Nat × Nat) (block : List Nat) : Nat × Nat × Nat × Nat :=
  let r := (List.range 64).foldl (fun s i =>
    let a := s.1
    let b := s.2.1
    let c := s.2.2.1
    let d := s.2.2.2
    let tmp := (a + md5Mix i b c d + md5K i + md5Word block (md5GIdx i)) % 2 ^ 32
    (d, (b + rotl32 tmp (md5S i)) % 2 ^ 32, b, c)) st
  ((st.1 + r.1) % 2 ^ 32, (st.2.1 + r.2.1) % 2 ^ 32,
   (st.2.2.1 + r.2.2.1) % 2 ^ 32, (st.2.2.2 + r.2.2.2) % 2 ^ 32)

/-- Little-endian serialization of a 32-bit word. -/
def u32LE (x : Nat) : List Nat :=
  [x % 256, (x >>> 8) % 256, (x >>> 16) % 256, (x >>> 24) % 256]

/-- Little-endian serialization of a 64-bit word. -/
def u64LE (x : Nat) : List Nat :=
  [x % 256, (x >>> 8) % 256, (x >>> 16) % 256, (x >>> 24) % 256,
   (x >>> 32) % 256, (x >>> 40) % 256, (x >>> 48) % 256, (x >>> 56) % 256]

/-- MD5 padding: a `0x80` byte, zeros up to 56 mod 64, then the
bit length as a little-endian 64-bit value. -/
def md5Pad (msg : List Nat) : List Nat :=
  msg ++ 128 :: List.replicate ((119 - msg.length % 64) % 64) 0 ++
    u64LE ((8 * msg.length) % 2 ^ 64)

/-- Split a list into 64-byte chunks, driven by a fuel counter. -/
def chunks64Go : Nat → List Nat → List (List Nat)
  | 0, _ => []
  | n + 1, l => l.take 64 :: chunks64Go n (l.drop 64)

/-- Split a padded message (whose length is a multiple of 64) into
64-byte blocks. -/
def chunks64 (l : List Nat) : List (List Nat) := chunks64Go (l.length / 64) l

/-- The MD5 digest (16 bytes) of a byte sequence. -/
def md5 (msg : List Nat) : List Nat :=
  let st := (chunks64 (md5Pad msg)).foldl md5Compress
    (0x67452301, 0xefcdab89, 0x98badcfe, 0x10325476)
  u32LE st.1 ++ u32LE st.2.1 ++ u32LE st.2.2.1 ++ u32LE st.2.2.2

/-- RFC 1321 test vector: the MD5 of the empty message. -/
theorem md5_rfc_vector_empty :
    md5 [] = [0xd4, 0x1d, 0x8c, 0xd9, 0x8f, 0x00, 0xb2, 0x04,
              0xe9, 0x80, 0x09, 0x98, 0xec, 0xf8, 0x42, 0x7e] := by
  decide

/-- RFC 1321 test vector: the MD5 of `"abc"`. -/
theorem md5_rfc_vector_abc :
    md5 [97, 98, 99] = [0x90, 0x01, 0x50, 0x98, 0x3c, 0xd2, 0x4f, 0xb0,
                        0xd6, 0x96, 0x3f, 0x7d, 0x28, 0xe1, 0x7f, 0x72] := by
  decide

/-! ### IdentifierGenerator (`src/src/pysha_sdk/utils/crypto/_native.pyx`) -/

/-- Model of `_write_u48_be`: the six big-endian bytes of the low 48 bits
of a `uint64_t`, each truncated by the `<uint8_t>` cast. -/
def write_u48_be (x : Nat) : List Nat :=
  [(x >>> 40) % 256, (x >>> 32) % 256, (x >>> 24) % 256,
   (x >>> 16) % 256, (x >>> 8) % 256, x % 256]

/-- The 16-byte buffer built by `uuidv7_cython`, as a function of the
millisecond timestamp (cast to `uint64_t`) and the 10 bytes returned by
`os.urandom(10)` (`rnd.getD i 0` models the C pointer access `r[i]`).
Byte 6 is `(r[0] & 0x0F) | 0x70`, byte 7 is `(r[1] & 0x3F) | 0x80`, and
bytes 8..15 are `r[2..9]` unchanged. -/
def uuidv7_bytes (tsMs : Nat) (rnd : List Nat) : List Nat :=
  write_u48_be (tsMs % 2 ^ 64) ++
  [((rnd.getD 0 0) &&& 15) ||| 112, ((rnd.getD 1 0) &&& 63) ||| 128,
   rnd.getD 2 0, rnd.getD 3 0, rnd.getD 4 0, rnd.getD 5 0,
   rnd.getD 6 0, rnd.getD 7 0, rnd.getD 8 0, rnd.getD 9 0]

/-- The canonical dashed 8-4-4-4-12 grouping that `str(UUID(...))`
applies to 32 hex characters. -/
def uuidFormat (h : List Nat) : List Nat :=
  h.take 8 ++ 45 :: ((h.drop 8).take 4 ++ 45 :: ((h.drop 12).take 4 ++
    45 :: ((h.drop 16).take 4 ++ 45 :: h.drop 20)))

/-- Dash removal, the model of `uuid.replace("-", "")`. -/
def stripDashes (s : List Nat) : List Nat := s.filter (fun c => c != 45)

/-- Model of `uuidv7_cython`, parametrised by its two external
collaborators: the clock value `time.time_ns() // 1_000_000` and the
10 random bytes from `os.urandom(10)`. -/
def uuidv7_cython (tsMs : Nat) (rnd : List Nat) : List Nat :=
  uuidFormat (bytesToHex (uuidv7_bytes tsMs rnd))

/-- Model of `_parse_hex_u48`: fold the first 12 characters through
`result = (result << 4) | _hex_char_to_nibble(c)` (missing characters
read as 0, matching the unchecked C pointer walk, which is only reached
on 32-character inputs). -/
def parse_hex_u48 (s : List Nat) : Nat :=
  (List.range 12).foldl (fun acc i => (acc <<< 4) ||| hexCharToNibble (s.getD i 0)) 0

/-- An absolute UTC timestamp as produced by
`datetime.fromtimestamp(x, tz=UTC)`.  The wrapped rational is the
seconds-since-epoch argument; the C double division `timestamp_ms / 1000.0`
is modelled as exact rational division. -/
structure PyDatetime where
  epochSeconds : Rat
deriving DecidableEq, Repr

/-- Constructor model for `datetime.fromtimestamp(x, tz=UTC)`. -/
def datetimeFromTimestamp (x : Rat) : PyDatetime := ⟨x⟩

/-- Model of `uuidv7_to_datetime_cython`: empty input returns `None`;
dashes are stripped; a stripped length other than 32 raises
`ValueError`; `clean_hex.encode('ascii')` raises on non-ASCII input;
otherwise the first 12 characters are parsed by `_parse_hex_u48` and
interpreted as milliseconds since the epoch. -/
def uuidv7_to_datetime_cython (uuid : List Nat) : Except PyErr (Option PyDatetime) :=
  if uuid.isEmpty then .ok none
  else
    let cleanHex := stripDashes uuid
    if cleanHex.length ≠ 32 then .error .valueError
    else if cleanHex.any (fun c => 128 ≤ c) then .error .unicodeEncodeError
    else .ok (some (datetimeFromTimestamp ((parse_hex_u48 cleanHex : Rat) / 1000)))

/-- Model of `"|".join(parts)`. -/
def pyJoin : List (List Nat) → List Nat
  | [] => []
  | [p] => p
  | p :: rest => p ++ 124 :: pyJoin rest

/-- Model of `str.upper()` restricted to ASCII letters; the strings it
is applied to in this development contain only `[0-9a-f-]`, on which
this agrees exactly with CPython. -/
def pyUpper (s : List Nat) : List Nat :=
  s.map (fun c => if 97 ≤ c && c ≤ 122 then c - 32 else c)

/-- Model of `to_stable_uuid_cython`: empty list returns the empty
string; otherwise join with `"|"`, UTF-8 encode, MD5, render the digest
as 32 lowercase hex characters, convert those back to 16 bytes, format
through `str(UUID(bytes=...))` and uppercase. -/
def to_stable_uuid_cython (parts : List (List Nat)) : List Nat :=
  if parts.isEmpty then []
  else
    let joined := pyJoin parts
    let digest := md5 (utf8Encode joined)
    let hexStr := bytesToHex digest
    let uuidBytes := hexToBytes hexStr
    pyUpper (uuidFormat (bytesToHex uuidBytes))

/-- Modelled from the spec: the stable identifier as §4.3 describes it —
"join parts with `\x7c`, hash the UTF-8 bytes, take the full digest as
the 128 raw bits, render uppercase dashed hex".  Used as the reference
side of the C8 refinement statement. -/
def stableIdSpec (parts : List (List Nat)) : List Nat :=
  if parts.isEmpty then []
  else pyUpper (uuidFormat (bytesToHex (md5 (utf8Encode (pyJoin parts)))))

/-! ### StructuralTransformer (objects module of the same pyx source)

Python values are modelled by the tree type `Value`.  Dict entries are
kept in insertion order as association lists with string keys (the
source coerces non-string keys with `str()` before applying the key
function; that coercion path is orthogonal to the verified claims).
A Python `set` is represented by its iteration sequence.  Sharing and
cycles are outside the model (the spec documents acyclicity as a caller
precondition). -/

inductive Value where
  | str (s : List Nat)
  | int (n : Int)
  | bool (b : Bool)
  | none
  | dict (entries : List (List Nat × Value))
  | list (elems : List Value)
  | tuple (elems : List Value)
  | set (elems : List Value)

mutual

/-- Size of a value, used as recursion fuel for the transformer models. -/
def valueSize : Value → Nat
  | .str _ => 1
  | .int _ => 1
  | .bool _ => 1
  | .none => 1
  | .dict es => 1 + entryListSize es
  | .list xs => 1 + valueListSize xs
  | .tuple xs => 1 + valueListSize xs
  | .set xs => 1 + valueListSize xs

/-- Size of a dict entry list. -/
def entryListSize : List (List Nat × Value) → Nat
  | [] => 0
  | (_, v) :: rest => 1 + valueSize v + entryListSize rest

/-- Size of a value list. -/
def valueListSize : List Value → Nat
  | [] => 0
  | v :: rest => 1 + valueSize v + valueListSize rest

end

/-- Python truthiness for the modelled value kinds. -/
def pyTruthy : Value → Bool
  | .str s => !s.isEmpty
  | .int n => n != 0
  | .bool b => b
  | .none => false
  | .dict es => !es.isEmpty
  | .list xs => !xs.isEmpty
  | .tuple xs => !xs.isEmpty
  | .set xs => !xs.isEmpty

/-- Model of `x or y`: the left operand when truthy, else the right. -/
def pyOr (a b : Value) : Value := if pyTruthy a then a else b

/-- Model of `is_iterable_except_str_like_cython` on the modelled kinds:
strings are excluded, the four container kinds are iterable, and the
scalar kinds fail `iter()` with `TypeError`. -/
def is_iterable_except_str_like_cython : Value → Bool
  | .dict _ => true
  | .list _ => true
  | .tuple _ => true
  | .set _ => true
  | _ => false

/-- Model of `k.startswith("_")` (`95` is the underscore). -/
def startsWithUnderscore (k : List Nat) : Bool := k.head? == some 95

/-- Model of `k.lstrip("_")`. -/
def stripUnderscores (k : List Nat) : List Nat := k.dropWhile (fun c => c == 95)

/-- Model of `d[k] = v` on an insertion-ordered dict: update the first
matching key in place, append when absent. -/
def assocSet : List (List Nat × Value) → List Nat → Value → List (List Nat × Value)
  | [], k, v => [(k, v)]
  | (k', v') :: rest, k, v =>
    if k' == k then (k', v) :: rest else (k', v') :: assocSet rest k v

/-- One iteration of the leading-underscore merge loop of
`change_keys_case` for snapshot key `k`: when `k` starts with `_` and its
fully-stripped candidate is present, set the candidate's value to
`d[new_k] or d[k]`; otherwise leave the dict alone. -/
def mergeStep (d : List (List Nat × Value)) (k : List Nat) : List (List Nat × Value) :=
  if startsWithUnderscore k then
    match d.lookup (stripUnderscores k) with
    | some vTarget =>
      assocSet d (stripUnderscores k) (pyOr vTarget ((d.lookup k).getD Value.none))
    | Option.none => d
  else d

/-- Model of the leading-underscore merge loop of `change_keys_case`:
iterate `mergeStep` over a snapshot of the keys (`for k in
list(d.keys())`).  The loop never adds or removes keys. -/
def mergePass (entries : List (List Nat × Value)) : List (List Nat × Value) :=
  (entries.map Prod.fst).foldl mergeStep entries

/-- Sequential dict construction `out = {}; out[new_key] = value; ...`. -/
def buildDict (pairs : List (List Nat × Value)) : List (List Nat × Value) :=
  pairs.foldl (fun out kv => assocSet out kv.1 kv.2) []

/-- Fuel-indexed body of `change_keys_case`.  The fuel only serves Lean's
termination checker: each recursive call is on a value reachable from a
strictly smaller subtree (values of `mergePass es` are values of `es`,
see `mergePass_value_of_mem`), and every exported entry point passes
an adequate bound computed by `valueSize`, which the recursion never
exhausts. -/
def changeKC (m : List Nat → List Nat) (deep : Bool) : Nat → Value → Value
  | 0, v => v
  | fuel + 1, v =>
    match v with
    | .str s => .str (m s)
    | .dict es =>
      .dict (buildDict ((mergePass es).map (fun p =>
        (m p.1, if deep && is_iterable_except_str_like_cython p.2 then
                  changeKC m deep fuel p.2 else p.2))))
    | .list xs =>
      .list (xs.map (fun x => if deep && is_iterable_except_str_like_cython x then
        changeKC m deep fuel x else x))
    | .tuple xs =>
      .tuple (xs.map (fun x => if deep && is_iterable_except_str_like_cython x then
        changeKC m deep fuel x else x))
    | .set xs =>
      .set (xs.map (fun x => if deep && is_iterable_except_str_like_cython x then
        changeKC m deep fuel x else x))
    | w => w

/-- Model of `change_keys_case(input_obj, method, deep)` (returned
value): strings get `method` applied directly; dicts run the underscore
merge, then rebuild with rewritten keys, recursing into iterable
non-string values when `deep`; lists, tuples and sets are rebuilt
element-wise with the same container kind; other scalars pass through. -/
def change_keys_case (m : List Nat → List Nat) (deep : Bool) (v : Value) : Value :=
  changeKC m deep (valueSize v) v

/-- Fuel-indexed body of `change_keys_case_post` (see there). -/
def changePostF (deep : Bool) : Nat → Value → Value
  | 0, v => v
  | fuel + 1, v =>
    match v with
    | .dict es =>
      .dict ((mergePass es).map (fun p =>
        (p.1, if deep && is_iterable_except_str_like_cython p.2 then
                changePostF deep fuel p.2 else p.2)))
    | .list xs =>
      .list (xs.map (fun x => if deep && is_iterable_except_str_like_cython x then
        changePostF deep fuel x else x))
    | .tuple xs =>
      .tuple (xs.map (fun x => if deep && is_iterable_except_str_like_cython x then
        changePostF deep fuel x else x))
    | .set xs =>
      .set (xs.map (fun x => if deep && is_iterable_except_str_like_cython x then
        changePostF deep fuel x else x))
    | w => w

/-- The state of the caller's argument after `change_keys_case(v, method,
deep)` returns.  The merge loop mutates each visited dict in place
(`d = <dict>input_obj`, comment "mutates input dict"); recursion reaches
a nested value exactly when `deep` and the value is iterable-non-string.
The result does not depend on `method`, which only shapes the returned
(fresh) object. -/
def change_keys_case_post (deep : Bool) (v : Value) : Value :=
  changePostF deep (valueSize v) v

/-- True when some key of the list starts with `_` and its fully
stripped candidate is also a key: exactly the situation in which the
merge loop writes into the dict. -/
def hasUnderscoreCollision (keys : List (List Nat)) : Bool :=
  keys.any (fun k => startsWithUnderscore k && keys.contains (stripUnderscores k))

/-- Fuel-indexed body of `noCollisionValue`. -/
def noCollisionF : Nat → Value → Bool
  | 0, _ => true
  | fuel + 1, v =>
    match v with
    | .dict es =>
      !hasUnderscoreCollision (es.map Prod.fst) && es.all (fun p => noCollisionF fuel p.2)
    | .list xs => xs.all (noCollisionF fuel)
    | .tuple xs => xs.all (noCollisionF fuel)
    | .set xs => xs.all (noCollisionF fuel)
    | _ => true

/-- No dict anywhere in the value has an underscore-merge collision. -/
def noCollisionValue (v : Value) : Bool := noCollisionF (valueSize v) v

/-- A numeric tag for the runtime type of a value (`type(v)`). -/
def kindTag : Value → Nat
  | .str _ => 0
  | .int _ => 1
  | .bool _ => 2
  | .none => 3
  | .dict _ => 4
  | .list _ => 5
  | .tuple _ => 6
  | .set _ => 7

/-- Containers in the sense of the claim: dict, list, tuple or set. -/
def isContainerKind (v : Value) : Bool :=
  is_iterable_except_str_like_cython v

/-- Lexicographic (code-point) order on strings, the model of Python's
`str` comparison used by `sorted`. -/
def lexLe : List Nat → List Nat → Bool
  | [], _ => true
  | _ :: _, [] => false
  | a :: as', b :: bs' => if a < b then true else if a == b then lexLe as' bs' else false

/-- Stable insertion of an entry into a key-sorted entry list. -/
def orderedInsertByKey (p : List Nat × Value) :
    List (List Nat × Value) → List (List Nat × Value)
  | [] => [p]
  | q :: rest => if lexLe p.1 q.1 then p :: q :: rest else q :: orderedInsertByKey p rest

/-- Stable sort of dict items by key: the model of
`sorted(input_dict.items())` (dict keys are unique, so the comparison
never reaches the values). -/
def insertionSortByKey : List (List Nat × Value) → List (List Nat × Value)
  | [] => []
  | p :: rest => orderedInsertByKey p (insertionSortByKey rest)

/-- Fuel-indexed body of `recursive_sort_keys_cython`. -/
def sortF : Nat → List (List Nat × Value) → List (List Nat × Value)
  | 0, es => es
  | fuel + 1, es =>
    (insertionSortByKey es).map (fun p =>
      (p.1,
        match p.2 with
        | Value.dict inner => Value.dict (sortF fuel inner)
        | Value.list xs =>
          Value.list (xs.map (fun x =>
            match x with
            | Value.dict i2 => Value.dict (sortF fuel i2)
            | w => w))
        | Value.tuple xs =>
          Value.list (xs.map (fun x =>
            match x with
            | Value.dict i2 => Value.dict (sortF fuel i2)
            | w => w))
        | w => w))

/-- Model of `recursive_sort_keys_cython`: sort the items by key, recurse
into dict values, and rebuild list and tuple values as a fresh *list*
whose dict elements are recursed (`new_list = []; ... result[key] =
new_list`); all other values pass through. -/
def recursive_sort_keys_cython (es : List (List Nat × Value)) : List (List Nat × Value) :=
  sortF (entryListSize es + 1) es

/-! ### Helper lemmas -/

theorem all_congr_mem {α : Type} (l : List α) (f g : α → Bool)
    (h : ∀ x ∈ l, f x = g x) : l.all f = l.all g := by
  induction l with
  | nil => rfl
  | cons x rest ih =>
    simp only [List.all_cons, h x (by simp)]
    rw [ih (fun y hy => h y (by simp [hy]))]

theorem map_id_mem {α : Type} (l : List α) (f : α → α)
    (h : ∀ x ∈ l, f x = x) : l.map f = l := by
  induction l with
  | nil => rfl
  | cons x rest ih =>
    simp only [List.map_cons, h x (by simp)]
    rw [ih (fun y hy => h y (by simp [hy]))]

theorem lookup_isSome_iff (l : List (List Nat × Value)) (k : List Nat) :
    (l.lookup k).isSome = true ↔ k ∈ l.map Prod.fst := by
  induction l with
  | nil => simp [List.lookup]
  | cons p rest ih =>
    obtain ⟨k', v'⟩ := p
    by_cases h : k = k'
    · subst h; simp [List.lookup]
    · have hb : (k == k') = false := by simp [h]
      simp [List.lookup, hb, ih, h]

theorem lookup_eq_none_iff (l : List (List Nat × Value)) (k : List Nat) :
    l.lookup k = none ↔ k ∉ l.map Prod.fst := by
  rw [← Option.not_isSome_iff_eq_none]
  exact not_congr (lookup_isSome_iff l k)

theorem lookup_mem_values (l : List (List Nat × Value)) (k : List Nat) (v : Value)
    (h : l.lookup k = some v) : ∃ k', (k', v) ∈ l := by
  induction l with
  | nil => simp [List.lookup] at h
  | cons p rest ih =>
    obtain ⟨k₁, v₁⟩ := p
    by_cases hk : k = k₁
    · subst hk
      simp [List.lookup] at h
      exact ⟨k, by simp [h]⟩
    · have hb : (k == k₁) = false := by simp [hk]
      simp only [List.lookup, hb] at h
      obtain ⟨k', hk'⟩ := ih h
      exact ⟨k', by simp [hk']⟩

theorem assocSet_keys_of_mem (l : List (List Nat × Value)) (k : List Nat) (v : Value)
    (h : k ∈ l.map Prod.fst) : (assocSet l k v).map Prod.fst = l.map Prod.fst := by
  induction l with
  | nil => simp at h
  | cons p rest ih =>
    obtain ⟨k', v'⟩ := p
    by_cases hk : k' = k
    · simp [assocSet, hk]
    · have hb : (k' == k) = false := by simp [hk]
      have hmem : k ∈ rest.map Prod.fst := by
        simp only [List.map_cons, List.mem_cons] at h
        rcases h with h | h
        · exact absurd h.symm hk
        · exact h
      simp [assocSet, hb, ih hmem]

theorem assocSet_lookup_ne (l : List (List Nat × Value)) (k₁ k₂ : List Nat) (v : Value)
    (h : k₁ ≠ k₂) : (assocSet l k₂ v).lookup k₁ = l.lookup k₁ := by
  induction l with
  | nil =>
    have hb : (k₁ == k₂) = false := by simp [h]
    simp [assocSet, List.lookup, hb]
  | cons p rest ih =>
    obtain ⟨k', v'⟩ := p
    by_cases hk : k' = k₂
    · subst hk
      have hb : (k₁ == k') = false := by simp [h]
      simp [assocSet, List.lookup, hb]
    · have hb : (k' == k₂) = false := by simp [hk]
      by_cases hk1 : k₁ = k'
      · subst hk1; simp [assocSet, hb, List.lookup]
      · have hb1 : (k₁ == k') = false := by simp [hk1]
        simp [assocSet, hb, List.lookup, hb1, ih]

theorem assocSet_eq_append_of_not_mem (l : List (List Nat × Value)) (k : List Nat) (v : Value)
    (h : k ∉ l.map Prod.fst) : assocSet l k v = l ++ [(k, v)] := by
  induction l with
  | nil => rfl
  | cons p rest ih =>
    obtain ⟨k', v'⟩ := p
    have hk : k' ≠ k := by
      intro he; exact h (by simp [he])
    have hb : (k' == k) = false := by simp [hk]
    have hr : k ∉ rest.map Prod.fst := fun hm => h (by simp [hm])
    simp [assocSet, hb, ih hr]

theorem mem_assocSet (l : List (List Nat × Value)) (k : List Nat) (v : Value)
    (p : List Nat × Value) (h : p ∈ assocSet l k v) : p ∈ l ∨ p.2 = v := by
  induction l with
  | nil =>
    simp [assocSet] at h
    subst h; exact Or.inr rfl
  | cons q rest ih =>
    obtain ⟨k', v'⟩ := q
    by_cases hk : k' = k
    · simp only [assocSet, hk] at h
      simp at h
      rcases h with h | h
      · subst h; exact Or.inr rfl
      · exact Or.inl (by simp [h])
    · have hb : (k' == k) = false := by simp [hk]
      simp only [assocSet, hb] at h
      simp at h
      rcases h with h | h
      · exact Or.inl (by simp [h])
      · rcases ih h with h' | h'
        · exact Or.inl (by simp [h'])
        · exact Or.inr h'

theorem startsWithUnderscore_strip (k : List Nat) :
    startsWithUnderscore (stripUnderscores k) = false := by
  induction k with
  | nil => rfl
  | cons c rest ih =>
    by_cases h : c = 95
    · subst h
      simpa [stripUnderscores, List.dropWhile] using ih
    · have hb : (c == 95) = false := by simp [h]
      simp [stripUnderscores, List.dropWhile, hb, startsWithUnderscore, h]

theorem ne_strip_of_startsWith (k : List Nat) (h : startsWithUnderscore k = true) :
    stripUnderscores k ≠ k := by
  intro he
  rw [← he, startsWithUnderscore_strip] at h
  cases h

theorem mergeStep_keys (d : List (List Nat × Value)) (k : List Nat) :
    (mergeStep d k).map Prod.fst = d.map Prod.fst := by
  unfold mergeStep
  by_cases h : startsWithUnderscore k = true
  · simp only [h, if_true]
    cases hl : d.lookup (stripUnderscores k) with
    | none => rfl
    | some vT =>
      have hmem : stripUnderscores k ∈ d.map Prod.fst :=
        (lookup_isSome_iff d _).mp (by simp [hl])
      exact assocSet_keys_of_mem d _ _ hmem
  · simp [h]

theorem foldl_mergeStep_keys (ks : List (List Nat)) :
    ∀ d : List (List Nat × Value), (ks.foldl mergeStep d).map Prod.fst = d.map Prod.fst := by
  induction ks with
  | nil => intro d; rfl
  | cons k rest ih =>
    intro d
    simp only [List.foldl_cons]
    rw [ih (mergeStep d k), mergeStep_keys]

theorem mergePass_keys (es : List (List Nat × Value)) :
    (mergePass es).map Prod.fst = es.map Prod.fst :=
  foldl_mergeStep_keys (es.map Prod.fst) es

theorem mergeStep_lookup_underscore (d : List (List Nat × Value)) (k q : List Nat)
    (h : startsWithUnderscore q = true) : (mergeStep d k).lookup q = d.lookup q := by
  unfold mergeStep
  by_cases hs : startsWithUnderscore k = true
  · simp only [hs, if_true]
    cases hl : d.lookup (stripUnderscores k) with
    | none => rfl
    | some vT =>
      refine assocSet_lookup_ne d q _ _ ?_
      intro he
      rw [he, startsWithUnderscore_strip] at h
      cases h
  · simp [hs]

theorem foldl_mergeStep_lookup_underscore (ks : List (List Nat)) (q : List Nat)
    (h : startsWithUnderscore q = true) :
    ∀ d : List (List Nat × Value), (ks.foldl mergeStep d).lookup q = d.lookup q := by
  induction ks with
  | nil => intro d; rfl
  | cons k rest ih =>
    intro d
    simp only [List.foldl_cons]
    rw [ih (mergeStep d k), mergeStep_lookup_underscore d k q h]

theorem mergePass_lookup_underscore (es : List (List Nat × Value)) (q : List Nat)
    (h : startsWithUnderscore q = true) : (mergePass es).lookup q = es.lookup q :=
  foldl_mergeStep_lookup_underscore (es.map Prod.fst) q h es

theorem mergeStep_eq_of_no_target (d : List (List Nat × Value)) (k : List Nat)
    (h : stripUnderscores k ∉ d.map Prod.fst) : mergeStep d k = d := by
  unfold mergeStep
  by_cases hs : startsWithUnderscore k = true
  · simp only [hs, if_true]
    rw [(lookup_eq_none_iff d _).mpr h]
  · simp [hs]

theorem mergePass_eq_self (es : List (List Nat × Value))
    (h : hasUnderscoreCollision (es.map Prod.fst) = false) : mergePass es = es := by
  unfold mergePass
  have hall : ∀ k ∈ es.map Prod.fst,
      startsWithUnderscore k = true → stripUnderscores k ∉ es.map Prod.fst := by
    intro k hk hs hmem
    have hcol : hasUnderscoreCollision (es.map Prod.fst) = true := by
      unfold hasUnderscoreCollision
      rw [List.any_eq_true]
      refine ⟨k, hk, ?_⟩
      rw [hs, Bool.true_and]
      simpa using hmem
    rw [hcol] at h
    cases h
  have aux : ∀ ks : List (List Nat),
      (∀ k ∈ ks, startsWithUnderscore k = true → stripUnderscores k ∉ es.map Prod.fst) →
      ks.foldl mergeStep es = es := by
    intro ks
    induction ks with
    | nil => intro _; rfl
    | cons k rest ih =>
      intro hl
      simp only [List.foldl_cons]
      have hstep : mergeStep es k = es := by
        by_cases hs : startsWithUnderscore k = true
        · exact mergeStep_eq_of_no_target es k (hl k (by simp) hs)
        · unfold mergeStep; simp [hs]
      rw [hstep]
      exact ih (fun q hq => hl q (by simp [hq]))
  exact aux (es.map Prod.fst) hall

theorem mergeStep_value_of_mem (d : List (List Nat × Value)) (k : List Nat)
    (hk : k ∈ d.map Prod.fst) (p : List Nat × Value) (h : p ∈ mergeStep d k) :
    p ∈ d ∨ ∃ q ∈ d, p.2 = q.2 := by
  unfold mergeStep at h
  by_cases hs : startsWithUnderscore k = true
  · simp only [hs, if_true] at h
    cases hl : d.lookup (stripUnderscores k) with
    | none => rw [hl] at h; exact Or.inl h
    | some vT =>
      rw [hl] at h
      rcases mem_assocSet _ _ _ _ h with h' | h'
      · exact Or.inl h'
      · right
        obtain ⟨w, hlk⟩ : ∃ w, d.lookup k = some w :=
          Option.isSome_iff_exists.mp ((lookup_isSome_iff d k).mpr hk)
        unfold pyOr at h'
        by_cases ht : pyTruthy vT = true
        · rw [if_pos ht] at h'
          obtain ⟨k', hk'⟩ := lookup_mem_values d _ vT hl
          exact ⟨(k', vT), hk', h'⟩
        · rw [if_neg (by simp_all)] at h'
          rw [hlk] at h'
          obtain ⟨k', hk'⟩ := lookup_mem_values d _ w hlk
          exact ⟨(k', w), hk', by simpa using h'⟩
  · simp only [hs, if_false] at h
    exact Or.inl h

/-- Every value of the merged dict is a value of the original dict
(`pyOr` returns one of its two operands, both read from the dict). -/
theorem mergePass_value_of_mem (es : List (List Nat × Value))
    (p : List Nat × Value) (h : p ∈ mergePass es) : ∃ q ∈ es, p.2 = q.2 := by
  unfold mergePass at h
  have main : ∀ (ks : List (List Nat)) (d : List (List Nat × Value)),
      (∀ k ∈ ks, k ∈ d.map Prod.fst) →
      (∀ r ∈ d, ∃ q ∈ es, r.2 = q.2) →
      ∀ r ∈ ks.foldl mergeStep d, ∃ q ∈ es, r.2 = q.2 := by
    intro ks
    induction ks with
    | nil => intro d _ hinv r hr; exact hinv r hr
    | cons k rest ih =>
      intro d hks hinv r hr
      simp only [List.foldl_cons] at hr
      refine ih (mergeStep d k) ?_ ?_ r hr
      · intro q hq
        rw [mergeStep_keys]
        exact hks q (by simp [hq])
      · intro r' hr'
        rcases mergeStep_value_of_mem d k (hks k (by simp)) r' hr' with h' | h'
        · exact hinv r' h'
        · obtain ⟨q, hq, he⟩ := h'
          obtain ⟨q', hq', he'⟩ := hinv q hq
          exact ⟨q', hq', he.trans he'⟩
  exact main (es.map Prod.fst) es (fun k hk => hk) (fun r hr => ⟨r, hr, rfl⟩) p h

theorem valueSize_pos (v : Value) : 1 ≤ valueSize v := by
  cases v <;> simp [valueSize]

theorem valueSize_dict (es : List (List Nat × Value)) :
    valueSize (Value.dict es) = entryListSize es + 1 := by
  simp [valueSize, Nat.add_comm]

theorem valueSize_list (xs : List Value) :
    valueSize (Value.list xs) = valueListSize xs + 1 := by
  simp [valueSize, Nat.add_comm]

theorem valueSize_tuple (xs : List Value) :
    valueSize (Value.tuple xs) = valueListSize xs + 1 := by
  simp [valueSize, Nat.add_comm]

theorem valueSize_set (xs : List Value) :
    valueSize (Value.set xs) = valueListSize xs + 1 := by
  simp [valueSize, Nat.add_comm]

theorem valueSize_le_of_mem_entries (es : List (List Nat × Value))
    (p : List Nat × Value) (h : p ∈ es) : valueSize p.2 ≤ entryListSize es := by
  induction es with
  | nil => simp at h
  | cons q rest ih =>
    obtain ⟨k, v⟩ := q
    rcases List.mem_cons.mp h with h' | h'
    · subst h'; simp only [entryListSize]; omega
    · have := ih h'; simp only [entryListSize]; omega

theorem valueSize_le_of_mem_elems (xs : List Value) (x : Value) (h : x ∈ xs) :
    valueSize x ≤ valueListSize xs := by
  induction xs with
  | nil => simp at h
  | cons y rest ih =>
    rcases List.mem_cons.mp h with h' | h'
    · subst h'; simp only [valueListSize]; omega
    · have := ih h'; simp only [valueListSize]; omega

/-- `noCollisionF` is insensitive to the fuel as soon as the fuel covers
the size of the value. -/
theorem noCollisionF_congr :
    ∀ fuel v, valueSize v ≤ fuel → noCollisionF fuel v = noCollisionValue v := by
  intro fuel
  induction fuel using Nat.strong_induction_on with
  | _ fuel ih =>
    intro v hv
    match fuel with
    | 0 => exact absurd hv (by have := valueSize_pos v; omega)
    | f + 1 =>
      unfold noCollisionValue
      cases v with
      | str s => rfl
      | int n => rfl
      | bool b => rfl
      | none => rfl
      | dict es =>
        rw [valueSize_dict]
        rw [valueSize_dict] at hv
        simp only [noCollisionF]
        congr 1
        refine all_congr_mem es _ _ (fun p hp => ?_)
        have h1 : valueSize p.2 ≤ f := by
          have := valueSize_le_of_mem_entries es p hp
          omega
        have h2 : valueSize p.2 ≤ entryListSize es :=
          valueSize_le_of_mem_entries es p hp
        rw [ih f (by omega) p.2 h1, ih (entryListSize es) (by omega) p.2 h2]
      | list xs =>
        rw [valueSize_list]
        rw [valueSize_list] at hv
        simp only [noCollisionF]
        refine all_congr_mem xs _ _ (fun x hx => ?_)
        have h1 : valueSize x ≤ f := by
          have := valueSize_le_of_mem_elems xs x hx
          omega
        have h2 : valueSize x ≤ valueListSize xs := valueSize_le_of_mem_elems xs x hx
        rw [ih f (by omega) x h1, ih (valueListSize xs) (by omega) x h2]
      | tuple xs =>
        rw [valueSize_tuple]
        rw [valueSize_tuple] at hv
        simp only [noCollisionF]
        refine all_congr_mem xs _ _ (fun x hx => ?_)
        have h1 : valueSize x ≤ f := by
          have := valueSize_le_of_mem_elems xs x hx
          omega
        have h2 : valueSize x ≤ valueListSize xs := valueSize_le_of_mem_elems xs x hx
        rw [ih f (by omega) x h1, ih (valueListSize xs) (by omega) x h2]
      | set xs =>
        rw [valueSize_set]
        rw [valueSize_set] at hv
        simp only [noCollisionF]
        refine all_congr_mem xs _ _ (fun x hx => ?_)
        have h1 : valueSize x ≤ f := by
          have := valueSize_le_of_mem_elems xs x hx
          omega
        have h2 : valueSize x ≤ valueListSize xs := valueSize_le_of_mem_elems xs x hx
        rw [ih f (by omega) x h1, ih (valueListSize xs) (by omega) x h2]

theorem noCollision_dict_parts (es : List (List Nat × Value))
    (h : noCollisionValue (Value.dict es) = true) :
    hasUnderscoreCollision (es.map Prod.fst) = false ∧
      ∀ p ∈ es, noCollisionValue p.2 = true := by
  unfold noCollisionValue at h
  rw [valueSize_dict] at h
  simp only [noCollisionF, Bool.and_eq_true, Bool.not_eq_true', List.all_eq_true] at h
  refine ⟨h.1, fun p hp => ?_⟩
  have := h.2 p hp
  rwa [noCollisionF_congr (entryListSize es) p.2 (valueSize_le_of_mem_entries es p hp)] at this

theorem noCollision_elems_parts (xs : List Value) (sz : Nat)
    (hsz : valueListSize xs ≤ sz)
    (h : (xs.all (noCollisionF sz)) = true) :
    ∀ x ∈ xs, noCollisionValue x = true := by
  intro x hx
  rw [List.all_eq_true] at h
  have := h x hx
  rwa [noCollisionF_congr sz x
    (le_trans (valueSize_le_of_mem_elems xs x hx) hsz)] at this

/-- On collision-free values, the post-state transformer is the
identity at every fuel. -/
theorem changePostF_id :
    ∀ (fuel : Nat) (deep : Bool) (v : Value),
      noCollisionValue v = true → changePostF deep fuel v = v := by
  intro fuel
  induction fuel with
  | zero => intro deep v _; rfl
  | succ f ih =>
    intro deep v hnc
    cases v with
    | str s => rfl
    | int n => rfl
    | bool b => rfl
    | none => rfl
    | dict es =>
      obtain ⟨hcol, hvals⟩ := noCollision_dict_parts es hnc
      simp only [changePostF]
      rw [mergePass_eq_self es hcol]
      rw [map_id_mem es _ (fun p hp => ?_)]
      by_cases hc : (deep && is_iterable_except_str_like_cython p.2) = true
      · rw [if_pos hc, ih deep p.2 (hvals p hp)]
      · rw [if_neg hc]
    | list xs =>
      have hels : ∀ x ∈ xs, noCollisionValue x = true := by
        refine noCollision_elems_parts xs (valueListSize xs) le_rfl ?_
        unfold noCollisionValue at hnc
        rw [valueSize_list] at hnc
        simpa only [noCollisionF] using hnc
      simp only [changePostF]
      rw [map_id_mem xs _ (fun x hx => ?_)]
      by_cases hc : (deep && is_iterable_except_str_like_cython x) = true
      · rw [if_pos hc, ih deep x (hels x hx)]
      · rw [if_neg hc]
    | tuple xs =>
      have hels : ∀ x ∈ xs, noCollisionValue x = true := by
        refine noCollision_elems_parts xs (valueListSize xs) le_rfl ?_
        unfold noCollisionValue at hnc
        rw [valueSize_tuple] at hnc
        simpa only [noCollisionF] using hnc
      simp only [changePostF]
      rw [map_id_mem xs _ (fun x hx => ?_)]
      by_cases hc : (deep && is_iterable_except_str_like_cython x) = true
      · rw [if_pos hc, ih deep x (hels x hx)]
      · rw [if_neg hc]
    | set xs =>
      have hels : ∀ x ∈ xs, noCollisionValue x = true := by
        refine noCollision_elems_parts xs (valueListSize xs) le_rfl ?_
        unfold noCollisionValue at hnc
        rw [valueSize_set] at hnc
        simpa only [noCollisionF] using hnc
      simp only [changePostF]
      rw [map_id_mem xs _ (fun x hx => ?_)]
      by_cases hc : (deep && is_iterable_except_str_like_cython x) = true
      · rw [if_pos hc, ih deep x (hels x hx)]
      · rw [if_neg hc]

/-- When the keys of the pair list are distinct, the sequential dict
construction keeps every pair: no later write overwrites an earlier one. -/
theorem buildDict_eq_self_of_nodup (pairs : List (List Nat × Value))
    (h : (pairs.map Prod.fst).Nodup) : buildDict pairs = pairs := by
  unfold buildDict
  have aux : ∀ (ps acc : List (List Nat × Value)),
      ((acc ++ ps).map Prod.fst).Nodup →
      ps.foldl (fun out kv => assocSet out kv.1 kv.2) acc = acc ++ ps := by
    intro ps
    induction ps with
    | nil => intro acc _; simp
    | cons p rest ih =>
      intro acc hnd
      obtain ⟨k, v⟩ := p
      have hnotin : k ∉ acc.map Prod.fst := by
        intro hmem
        rw [List.map_append, List.nodup_append] at hnd
        exact hnd.2.2 hmem (by simp)
      simp only [List.foldl_cons]
      rw [assocSet_eq_append_of_not_mem acc k v hnotin]
      have hre : (acc ++ [(k, v)]) ++ rest = acc ++ (k, v) :: rest := by simp
      rw [ih (acc ++ [(k, v)]) (by rw [hre]; exact hnd), hre]
  simpa using aux pairs [] (by simpa using h)

/-- Lookup through a key-rewriting map: with an injective key function,
looking up `m k` in the rewritten dict is looking up `k` in the original. -/
theorem lookup_map_inj (es : List (List Nat × Value)) (m : List Nat → List Nat)
    (f : List Nat × Value → Value) (k : List Nat) (hinj : Function.Injective m) :
    (es.map (fun p => (m p.1, f p))).lookup (m k) =
      (es.lookup k).map (fun v => f (k, v)) := by
  induction es with
  | nil => simp [List.lookup]
  | cons p rest ih =>
    obtain ⟨k₁, v₁⟩ := p
    by_cases hk : k = k₁
    · subst hk; simp [List.lookup]
    · have hb : (k == k₁) = false := by simp [hk]
      have hbm : (m k == m k₁) = false := by
        simp only [beq_eq_false_iff_ne, ne_eq]
        exact fun he => hk (hinj he)
      simp only [List.map_cons, List.lookup, hb, hbm]
      exact ih

theorem isSome_map_option {α β : Type} (o : Option α) (f : α → β) :
    (o.map f).isSome = o.isSome := by
  cases o <;> rfl

/-- Nibble values are below 16. -/
theorem hexCharToNibble_lt (c : Nat) : hexCharToNibble c < 16 := by
  unfold hexCharToNibble
  split
  · next h => simp only [Bool.and_eq_true, decide_eq_true_eq] at h; omega
  split
  · next h => simp only [Bool.and_eq_true, decide_eq_true_eq] at h; omega
  split
  · next h => simp only [Bool.and_eq_true, decide_eq_true_eq] at h; omega
  · omega

/-- Per-byte hex round trip, checked for all byte values. -/
theorem hex_byte_roundtrip :
    ∀ b < 256, ((hexCharToNibble (hexChar (b >>> 4))) <<< 4) |||
      hexCharToNibble (hexChar (b &&& 15)) = b := by decide

/-- Decoding the lowercase hex rendering of a byte buffer restores the
buffer. -/
theorem hexToBytes_bytesToHex (B : List Nat) (h : ∀ b ∈ B, b < 256) :
    hexToBytes (bytesToHex B) = B := by
  induction B with
  | nil => rfl
  | cons b rest ih =>
    simp only [bytesToHex, hexToBytes]
    rw [hex_byte_roundtrip b (h b (by simp)), ih (fun x hx => h x (by simp [hx]))]

theorem u32LE_lt (x : Nat) : ∀ b ∈ u32LE x, b < 256 := by
  intro b hb
  simp only [u32LE, List.mem_cons, List.not_mem_nil, or_false] at hb
  rcases hb with h | h | h | h <;> subst h <;> omega

/-- MD5 digests are byte sequences. -/
theorem md5_byte_lt (msg : List Nat) : ∀ b ∈ md5 msg, b < 256 := by
  intro b hb
  unfold md5 at hb
  simp only [List.mem_append] at hb
  rcases hb with ((h | h) | h) | h <;> exact u32LE_lt _ b h

/-- `_parse_hex_u48` really is a 48-bit value. -/
theorem parse_hex_u48_lt (s : List Nat) : parse_hex_u48 s < 2 ^ 48 := by
  unfold parse_hex_u48
  have aux : ∀ (L : List Nat) (acc k : Nat), acc < 2 ^ k →
      L.foldl (fun a i => (a <<< 4) ||| hexCharToNibble (s.getD i 0)) acc <
        2 ^ (k + 4 * L.length) := by
    intro L
    induction L with
    | nil => intro acc k h; simpa using h
    | cons i rest ih =>
      intro acc k h
      simp only [List.foldl_cons]
      have hstep : (acc <<< 4) ||| hexCharToNibble (s.getD i 0) < 2 ^ (4 + k) :=
        Nat.append_lt (lt_of_lt_of_le (hexCharToNibble_lt _) (by norm_num)) h
      have := ih _ (4 + k) hstep
      have harith : 4 + k + 4 * rest.length = k + 4 * (rest.length + 1) := by omega
      rw [harith] at this
      simpa using this
  have := aux (List.range 12) 0 0 (by norm_num)
  simpa using this

/-! ### Claim theorems -/

/-- C1: the claim says `isValidNationalId("")` returns `false`.  The code
does not special-case the empty string: the digit loop is vacuous,
`"".zfill(9)` is `"000000000"`, its checksum is `0 ≡ 0 (mod 10)`, and the
validator returns `true`.  This theorem evaluates the model at the
failing input, exhibiting the divergence from the spec. -/
theorem israeli_id_empty_accepted : is_valid_israeli_id_cython [] = true := by decide

/-- C2: the claim says `isHex` never raises and returns `false` on any
text containing a non-ASCII character.  The code calls
`text.encode('ascii')` first, which raises `UnicodeEncodeError` on the
one-character input `"é"` (code point 233); ordinary ASCII hex text
is classified normally. -/
theorem is_hex_nonascii_raises :
    is_hex_cython [233] = Except.error PyErr.unicodeEncodeError ∧
      is_hex_cython [54, 49, 54, 50] = Except.ok true := ⟨rfl, rfl⟩

/-- C3 counterexample: `"zz"` has even length and characters outside
`[0-9a-fA-F]`, yet `from_hex_cython` raises nothing and returns the
one-byte buffer `\x00` decoded as a string — refuting "for every such
malformed input an error is raised". -/
theorem from_hex_no_error_on_invalid_char :
    from_hex_cython [122, 122] = Except.ok [0] ∧ isHexChar 122 = false := ⟨rfl, rfl⟩

/-- C3 (amended): `from_hex_cython` raises exactly when the input has a
non-ASCII character (`encode('ascii')`), odd length (`ValueError`), or
decodes to bytes that are not valid UTF-8 (`decode('utf-8')`); a
malformed ASCII hex character never raises by itself, because
`_hex_char_to_nibble` maps it to 0. -/
theorem from_hex_error_characterization (text : List Nat) :
    (isOkE (from_hex_cython text) = false ↔
      text.any (fun c => 128 ≤ c) = true ∨ text.length % 2 = 1 ∨
        utf8Decode (hexToBytes text) = Option.none) ∧
    (∀ c : Nat, isHexChar c = false → hexCharToNibble c = 0) := by
  constructor
  · unfold from_hex_cython
    by_cases h1 : text.any (fun c => 128 ≤ c) = true
    · simp [h1, isOkE]
    · rw [if_neg h1]
      by_cases h2 : text.length % 2 = 0
      · rw [if_neg (by omega)]
        cases hd : utf8Decode (hexToBytes text) with
        | some s =>
          constructor
          · intro hh; exact absurd hh (by simp [isOkE])
          · intro hh
            rcases hh with hh | hh | hh
            · exact absurd hh h1
            · exact absurd hh (by omega)
            · cases hh
        | none =>
          constructor
          · intro _; exact Or.inr (Or.inr rfl)
          · intro _; rfl
      · rw [if_pos (by omega)]
        constructor
        · intro _; exact Or.inr (Or.inl (by omega))
        · intro _; rfl
  · intro c hc
    have h1 : ¬ ((48 ≤ c && c ≤ 57) = true) := by
      intro hd
      rw [isHexChar, hd] at hc
      simp at hc
    have h2 : ¬ ((97 ≤ c && c ≤ 102) = true) := by
      intro hd
      rw [isHexChar, hd] at hc
      simp at hc
    have h3 : ¬ ((65 ≤ c && c ≤ 70) = true) := by
      intro hd
      rw [isHexChar, hd] at hc
      simp at hc
    unfold hexCharToNibble
    rw [if_neg h1, if_neg h2, if_neg h3]

/-- C3 witness: the well-formed hex text `"ff"` decodes to the byte
`0xff`, which is not valid UTF-8, so an error is raised; `'z'` maps to
nibble 0. -/
theorem from_hex_error_characterization_witness :
    isOkE (from_hex_cython [102, 102]) = false ∧ hexCharToNibble 122 = 0 :=
  ⟨(from_hex_error_characterization [102, 102]).1.mpr (Or.inr (Or.inr rfl)),
   (from_hex_error_characterization [102, 102]).2 122 rfl⟩

/-- C4 counterexample: on `{"_a": 1, "a": 0}` the reserved-prefix merge
writes `d["a"] = d["a"] or d["_a"] = 1` into the caller's dict, so after
the call the argument holds different key-value pairs than before. -/
theorem change_keys_case_mutates_argument :
    change_keys_case_post true (Value.dict [([95, 97], Value.int 1), ([97], Value.int 0)]) =
      Value.dict [([95, 97], Value.int 1), ([97], Value.int 1)] ∧
    change_keys_case_post true (Value.dict [([95, 97], Value.int 1), ([97], Value.int 0)]) ≠
      Value.dict [([95, 97], Value.int 1), ([97], Value.int 0)] := by
  refine ⟨rfl, ?_⟩
  intro h
  rw [show change_keys_case_post true
      (Value.dict [([95, 97], Value.int 1), ([97], Value.int 0)]) =
      Value.dict [([95, 97], Value.int 1), ([97], Value.int 1)] from rfl] at h
  simp at h

/-- C4 (amended): `changeKeysCase` does mutate its argument through the
reserved-prefix merge; the caller's value is left unchanged whenever no
dict reachable by the transform has a `_`-prefixed key whose stripped
candidate key is also present. -/
theorem change_keys_case_no_collision_unchanged (deep : Bool) (v : Value)
    (h : noCollisionValue v = true) : change_keys_case_post deep v = v :=
  changePostF_id (valueSize v) deep v h

/-- C4 witness: a one-entry dict without prefix collisions is returned
unchanged. -/
theorem change_keys_case_no_collision_unchanged_witness :
    noCollisionValue (Value.dict [([97], Value.int 5)]) = true ∧
    change_keys_case_post true (Value.dict [([97], Value.int 5)]) =
      Value.dict [([97], Value.int 5)] :=
  ⟨by decide, change_keys_case_no_collision_unchanged true _ (by decide)⟩

/-- C5 counterexample: `recursive_sort_keys_cython` rebuilds a tuple
value as a Python list (`new_list`), so the tuple container kind is not
preserved. -/
theorem recursive_sort_tuple_becomes_list :
    recursive_sort_keys_cython [([107], Value.tuple [Value.int 1])] =
      [([107], Value.list [Value.int 1])] ∧
    kindTag (Value.list [Value.int 1]) ≠ kindTag (Value.tuple [Value.int 1]) :=
  ⟨rfl, by decide⟩

/-- C5 (amended): `change_keys_case` preserves all four container kinds
(dict, list, tuple, set) — and since nested containers are processed by
recursive calls of the same function, this holds at every nesting
level — while `recursive_sort_keys_cython` rebuilds list *and tuple*
values as lists: no direct value of its output is a tuple. -/
theorem container_kind_amended :
    (∀ (m : List Nat → List Nat) (deep : Bool) (v : Value), isContainerKind v = true →
        kindTag (change_keys_case m deep v) = kindTag v) ∧
    (∀ (es : List (List Nat × Value)) (p : List Nat × Value),
        p ∈ recursive_sort_keys_cython es → kindTag p.2 ≠ 6) := by
  constructor
  · intro m deep v hv
    cases v with
    | str s => simp [isContainerKind, is_iterable_except_str_like_cython] at hv
    | int n => simp [isContainerKind, is_iterable_except_str_like_cython] at hv
    | bool b => simp [isContainerKind, is_iterable_except_str_like_cython] at hv
    | none => simp [isContainerKind, is_iterable_except_str_like_cython] at hv
    | dict es =>
      unfold change_keys_case
      rw [valueSize_dict]
      simp only [changeKC, kindTag]
    | list xs =>
      unfold change_keys_case
      rw [valueSize_list]
      simp only [changeKC, kindTag]
    | tuple xs =>
      unfold change_keys_case
      rw [valueSize_tuple]
      simp only [changeKC, kindTag]
    | set xs =>
      unfold change_keys_case
      rw [valueSize_set]
      simp only [changeKC, kindTag]
  · intro es p hp
    unfold recursive_sort_keys_cython at hp
    simp only [sortF] at hp
    rw [List.mem_map] at hp
    obtain ⟨q, hq, rfl⟩ := hp
    obtain ⟨k, v⟩ := q
    cases v <;> simp [kindTag]

/-- C5 witness: a set input keeps the set kind, and the tuple value of
the sorted example dict came out as a non-tuple. -/
theorem container_kind_amended_witness :
    kindTag (change_keys_case (fun s => s) true (Value.set [Value.int 3])) =
      kindTag (Value.set [Value.int 3]) ∧
    kindTag (Value.list [Value.int 1]) ≠ 6 :=
  ⟨container_kind_amended.1 (fun s => s) true (Value.set [Value.int 3]) (by decide),
   container_kind_amended.2 [([107], Value.tuple [Value.int 1])]
     ([107], Value.list [Value.int 1])
     (by rw [show recursive_sort_keys_cython [([107], Value.tuple [Value.int 1])] =
           [([107], Value.list [Value.int 1])] from rfl]
         exact List.mem_singleton.mpr rfl)⟩

/-- C6: the claim says the variant nibble's top two bits are always
`10`.  The generator ORs `0x80` into byte 7 (hex digit 14) instead of
byte 8 (hex digit 16, bits 64..65 — the variant position of the spec's
layout and of RFC 4122), leaving digit 16 entirely random: with zero
random bytes the version digit (12) is `'7'` but digit 16 is `'0'`,
whose top two bits are `00`, while the `10` tag sits at digit 14. -/
theorem uuidv7_variant_byte_misplaced :
    (stripDashes (uuidv7_cython 0 (List.replicate 10 0)))[12]? = some 55 ∧
    (stripDashes (uuidv7_cython 0 (List.replicate 10 0)))[16]? = some 48 ∧
    (stripDashes (uuidv7_cython 0 (List.replicate 10 0)))[14]? = some 56 ∧
    hexCharToNibble 48 >>> 2 = 0 ∧ hexCharToNibble 56 >>> 2 = 2 := by decide

/-- C7 counterexample: an input of 32 Hebrew letters has stripped length
32, yet `clean_hex.encode('ascii')` raises `UnicodeEncodeError` instead
of the claimed timestamp result. -/
theorem uuidv7_to_datetime_nonascii_raises :
    uuidv7_to_datetime_cython (List.replicate 32 1488) =
      Except.error PyErr.unicodeEncodeError ∧
    (stripDashes (List.replicate 32 1488)).length = 32 := ⟨rfl, by decide⟩

/-- C7 (amended): empty input returns `None` without error; non-empty
input with stripped length ≠ 32 raises `ValueError`; non-empty ASCII
input of stripped length 32 yields the timestamp whose milliseconds are
the `_parse_hex_u48` fold of the first 12 characters (non-hex ASCII
characters read as nibble 0), a 48-bit value; non-ASCII input of
stripped length 32 instead raises `UnicodeEncodeError`
(`uuidv7_to_datetime_nonascii_raises`). -/
theorem uuidv7_to_datetime_characterization :
    (uuidv7_to_datetime_cython [] = Except.ok Option.none) ∧
    (∀ s : List Nat, s ≠ [] → (stripDashes s).length ≠ 32 →
        uuidv7_to_datetime_cython s = Except.error PyErr.valueError) ∧
    (∀ s : List Nat, s ≠ [] → (stripDashes s).length = 32 →
        (∀ c ∈ stripDashes s, c < 128) →
        uuidv7_to_datetime_cython s = Except.ok (some (datetimeFromTimestamp
          ((parse_hex_u48 (stripDashes s) : Rat) / 1000)))) ∧
    (∀ s : List Nat, parse_hex_u48 s < 2 ^ 48) := by
  refine ⟨rfl, ?_, ?_, fun s => parse_hex_u48_lt s⟩
  · intro s hne hlen
    cases s with
    | nil => cases hne rfl
    | cons a t => simp [uuidv7_to_datetime_cython, hlen]
  · intro s hne hlen h128
    cases s with
    | nil => cases hne rfl
    | cons a t =>
      have hanyf : (stripDashes (a :: t)).any (fun c => 128 ≤ c) = false := by
        rw [List.any_eq_false]
        intro c hc
        simpa using Nat.not_le.mpr (h128 c hc)
      simp [uuidv7_to_datetime_cython, hlen, hanyf]

/-- C7 witness: a one-character input raises `ValueError`; the
all-zeros 32-character input parses to timestamp 0. -/
theorem uuidv7_to_datetime_characterization_witness :
    uuidv7_to_datetime_cython [48] = Except.error PyErr.valueError ∧
    uuidv7_to_datetime_cython (List.replicate 32 48) =
      Except.ok (some (datetimeFromTimestamp
        ((parse_hex_u48 (stripDashes (List.replicate 32 48)) : Rat) / 1000))) ∧
    parse_hex_u48 [] < 2 ^ 48 :=
  ⟨uuidv7_to_datetime_characterization.2.1 [48] (by decide) (by decide),
   uuidv7_to_datetime_characterization.2.2.1 (List.replicate 32 48)
     (by decide) (by decide) (by decide),
   uuidv7_to_datetime_characterization.2.2.2 []⟩

/-- C8: the stable identifier returns the empty string on the empty
list; on a non-empty list it equals the uppercase dashed-hex rendering
of the full 128-bit MD5 digest of the UTF-8 bytes of the parts joined
with `\x7c` (the hex-and-back detour in the code collapses by the hex
round trip); it is deterministic; and the two orderings of `["a","b"]`
give different outputs. -/
theorem to_stable_uuid_correct :
    to_stable_uuid_cython [] = [] ∧
    (∀ parts, parts ≠ [] → to_stable_uuid_cython parts = stableIdSpec parts) ∧
    (∀ p q : List (List Nat), p = q →
        to_stable_uuid_cython p = to_stable_uuid_cython q) ∧
    to_stable_uuid_cython [[97], [98]] ≠ to_stable_uuid_cython [[98], [97]] := by
  refine ⟨rfl, ?_, fun p q h => h ▸ rfl, by decide⟩
  intro parts hne
  have hie : parts.isEmpty = false := by
    cases parts with
    | nil => cases hne rfl
    | cons a t => rfl
  simp only [to_stable_uuid_cython, stableIdSpec, hie, Bool.false_eq_true, if_false]
  rw [hexToBytes_bytesToHex (md5 (utf8Encode (pyJoin parts))) (md5_byte_lt _)]

/-- C8 witness: the refinement applied at the one-part list `["a"]`. -/
theorem to_stable_uuid_correct_witness :
    to_stable_uuid_cython [[97]] = stableIdSpec [[97]] :=
  to_stable_uuid_correct.2.1 [[97]] (by decide)

/-- C9: decoding the two-lowercase-hex-characters-per-byte encoding
(high nibble first) recovers exactly the original byte buffer. -/
theorem hex_roundtrip (B : List Nat) (h : ∀ b ∈ B, b < 256) :
    hexToBytes (bytesToHex B) = B :=
  hexToBytes_bytesToHex B h

/-- C9 witness: the round trip at the buffer `[0, 255, 171]`. -/
theorem hex_roundtrip_witness : hexToBytes (bytesToHex [0, 255, 171]) = [0, 255, 171] :=
  hex_roundtrip [0, 255, 171] (by decide)

/-- C10 counterexample: with key function `_a ↦ x`, `a ↦ y`, `b ↦ x`,
the entry written for the prefixed key `_a` (value 1) is overwritten by
the later entry for `b` (value 2) because both rewrite to `x`; the
output entry at `keyFn("_a")` does not carry the prefixed key's original
value. -/
theorem change_keys_case_merged_entry_overwritten :
    change_keys_case
        (fun s => if s = [95, 97] then [120] else if s = [97] then [121] else [120]) true
        (Value.dict [([95, 97], Value.int 1), ([97], Value.int 0), ([98], Value.int 2)]) =
      Value.dict [([120], Value.int 2), ([121], Value.int 1)] ∧
    ¬ Value.int 2 = Value.int 1 := by
  refine ⟨rfl, ?_⟩
  intro h
  simp at h

/-- C10 (amended): when the key function is injective and the prefixed
key's value is a non-recursed scalar, the output dict keeps an entry at
`keyFn` of the prefixed key carrying that key's original value (the
merge writes only into the candidate key), and an entry at `keyFn` of
the candidate key. -/
theorem change_keys_case_keeps_both_entries
    (m : List Nat → List Nat) (deep : Bool) (es : List (List Nat × Value))
    (k : List Nat) (v : Value)
    (hinj : Function.Injective m)
    (hnd : (es.map Prod.fst).Nodup)
    (hu : startsWithUnderscore k = true)
    (hkv : es.lookup k = some v)
    (hcand : stripUnderscores k ∈ es.map Prod.fst)
    (hscal : is_iterable_except_str_like_cython v = false) :
    ∃ out, change_keys_case m deep (Value.dict es) = Value.dict out ∧
      out.lookup (m k) = some v ∧
      (out.lookup (m (stripUnderscores k))).isSome = true := by
  unfold change_keys_case
  rw [valueSize_dict]
  simp only [changeKC]
  refine ⟨_, rfl, ?_, ?_⟩
  · rw [buildDict_eq_self_of_nodup]
    · rw [lookup_map_inj (mergePass es) m
        (fun p => if deep && is_iterable_except_str_like_cython p.2 then
          changeKC m deep (entryListSize es) p.2 else p.2) k hinj]
      rw [mergePass_lookup_underscore es k hu, hkv]
      simp [hscal]
    · have hkeys : (((mergePass es).map (fun p => (m p.1,
          if deep && is_iterable_except_str_like_cython p.2 then
            changeKC m deep (entryListSize es) p.2 else p.2))).map Prod.fst) =
          (es.map Prod.fst).map m := by
        rw [← mergePass_keys es]
        simp [List.map_map, Function.comp]
      rw [hkeys]
      exact hnd.map hinj
  · rw [buildDict_eq_self_of_nodup]
    · rw [lookup_map_inj (mergePass es) m
        (fun p => if deep && is_iterable_except_str_like_cython p.2 then
          changeKC m deep (entryListSize es) p.2 else p.2) (stripUnderscores k) hinj]
      rw [isSome_map_option, lookup_isSome_iff, mergePass_keys]
      exact hcand
    · have hkeys : (((mergePass es).map (fun p => (m p.1,
          if deep && is_iterable_except_str_like_cython p.2 then
            changeKC m deep (entryListSize es) p.2 else p.2))).map Prod.fst) =
          (es.map Prod.fst).map m := by
        rw [← mergePass_keys es]
        simp [List.map_map, Function.comp]
      rw [hkeys]
      exact hnd.map hinj

/-- C10 witness: the amended statement at `{"_a": 1, "a": 0}` with the
identity key function. -/
theorem change_keys_case_keeps_both_entries_witness :
    ∃ out, change_keys_case (fun s => s) true
        (Value.dict [([95, 97], Value.int 1), ([97], Value.int 0)]) = Value.dict out ∧
      out.lookup [95, 97] = some (Value.int 1) ∧
      (out.lookup [97]).isSome = true :=
  change_keys_case_keeps_both_entries (fun s => s) true
    [([95, 97], Value.int 1), ([97], Value.int 0)] [95, 97] (Value.int 1)
    (fun a b h => h) (by decide) (by decide) rfl (by decide) rfl

end Pysha
